import Mathlib

/-!
Verification of the semi-classical subset-state preparation repository.

The Python sources under `src/` are shallowly embedded below:

* `src/utility/subset_permutation.py` : `SubsetPermutation.permutation_cycles`
  (a possibly non-terminating while loop, embedded with an explicit fuel
  parameter; `none` means the fuel ran out, i.e. the loop had not yet exited).
* `src/utility/grover_rudolph_angles.py` : `generate_prefix_binary_sequence`,
  `partition_counter`, `partition_angle`, `get_angles`.
* `src/utility/grover_rudolph_circuit.py` : `control_tag`, `generate_circuit`.
* `src/utility/permutation_circuits.py` : `gray_code_gate` and
  `permutation_cycle_gate` decompositions.
* `src/main.py` : the validation block and the orchestration of `main`.

Python binary strings are embedded as `List Bool` (`true` = the character 1),
most significant bit first, matching `f"{i:0{n}b}"` / `bin(i)[2:].zfill(n)`.
Angles are represented by the pair of partition counts `(N0, N1)` feeding
`2 * acos (sqrt (N0 / (N0 + N1)))`; every claim under verification concerns
the count, order and indexing of the angles, never their numerical value,
so the transcendental evaluation itself is left abstract.
-/

/-- Number of binary digits of `n` computed with an explicit structural fuel
(`bitLenAux fuel n` is correct whenever `n ≤ fuel`).  This is the kernel-reducible
replacement for `Nat.log 2 n + 1`. -/
def bitLenAux : ℕ → ℕ → ℕ
  | 0, _ => 0
  | fuel + 1, n => if n = 0 then 0 else bitLenAux fuel (n / 2) + 1

/-- Number of binary digits of `n` (`bitLen 0 = 0`, `bitLen 5 = 3`). -/
def bitLen (n : ℕ) : ℕ := bitLenAux n n

/-- Exact value of `math.ceil(np.log2 c)` for the integer inputs the sources
feed it (`ceilLog2 1 = 0`, `ceilLog2 5 = 3`). -/
def ceilLog2 (c : ℕ) : ℕ := bitLen (c - 1)

/-- Rendering of `x` as a most-significant-bit-first binary string of exactly
`len` digits, the embedding of `f"{x:0{len}b}"` when `x < 2 ^ len`. -/
def natToBits (len x : ℕ) : List Bool :=
  ((List.range len).map (fun j => x.testBit j)).reverse

/-- Length of the Python rendering `bin(x)[2:]`: one digit for `0`, otherwise
the number of binary digits of `x`. -/
def pyBitLen (x : ℕ) : ℕ := max 1 (bitLen x)

/-- Embedding of the Python renderings `f"{x:0{width}b}"` and
`bin(x)[2:].zfill(width)`: the binary digits of `x`, left padded with zeros
to `width` characters, longer when `x` needs more than `width` digits. -/
def pyBinFormat (x width : ℕ) : List Bool := natToBits (max width (pyBitLen x)) x

/- ----------------------------------------------------------------- -/
/- src/utility/subset_permutation.py                                  -/
/- ----------------------------------------------------------------- -/

/-- Inner while loop of `SubsetPermutation.permutation_cycles`
(src/utility/subset_permutation.py lines 74-77):
`while j < d: used[j] = True; j = target_subset[j]; cycle.append(j)`.
The loop has no other exit, so it is embedded with a fuel parameter;
`none` means the exit condition was still unreached when the fuel ran out. -/
def followLoop (t : List ℕ) (d : ℕ) :
    ℕ → ℕ → List Bool → List ℕ → Option (List Bool × List ℕ)
  | 0, _, _, _ => none
  | fuel + 1, j, used, cycle =>
    if j < d then
      followLoop t d fuel (t.getD j 0) (used.set j true) (cycle ++ [t.getD j 0])
    else
      some (used, cycle)

/-- Outer for loop of `SubsetPermutation.permutation_cycles`
(src/utility/subset_permutation.py lines 67-79): scan the indices `is`,
skip used indices and fixed points, otherwise start the cycle
`[i, target_subset[i]]` and run the inner while loop. -/
def cyclesLoop (t : List ℕ) (d fuel : ℕ) :
    List ℕ → List Bool → List (List ℕ) → Option (List (List ℕ))
  | [], _, cycles => some cycles
  | i :: rest, used, cycles =>
    if used.getD i false ∨ t.getD i 0 = i then
      cyclesLoop t d fuel rest used cycles
    else
      match followLoop t d fuel (t.getD i 0) used [i, t.getD i 0] with
      | none => none
      | some (used', cycle) => cyclesLoop t d fuel rest used' (cycles ++ [cycle])

/-- Embedding of `SubsetPermutation.permutation_cycles` for a target subset of
natural numbers; `fuel` bounds the number of iterations of the inner while
loop, and `none` reports that the inner loop had still not exited. -/
def permutation_cycles (t : List ℕ) (fuel : ℕ) : Option (List (List ℕ)) :=
  cyclesLoop t t.length fuel (List.range t.length) (List.replicate t.length false) []

/- ----------------------------------------------------------------- -/
/- src/utility/grover_rudolph_angles.py                               -/
/- ----------------------------------------------------------------- -/

/-- Representation of one Grover-Rudolph rotation angle by the partition
counts that determine it; the numerical value downstream is
`2 * acos (sqrt (N0 / (N0 + N1)))` and is never inspected by the claims. -/
structure GRAngle where
  N0 : ℕ
  N1 : ℕ
deriving DecidableEq, Repr

/-- Embedding of the `GroverRudolphAngles.__init__` validation:
the constructor rejects any cardinality at most 2. -/
def mkGroverRudolphAngles (card : ℕ) : Except String ℕ :=
  if card ≤ 2 then
    .error "Cardinality must be greater than 2 for generating angles."
  else .ok card

/-- All binary strings of a given length in increasing numeric order, as
produced by the inner for loop of `generate_prefix_binary_sequence`
(src/utility/grover_rudolph_angles.py lines 41-43). -/
def blockAt (len : ℕ) : List (List Bool) :=
  (List.range (2 ^ len)).map (natToBits len)

/-- While loop of `generate_prefix_binary_sequence`
(src/utility/grover_rudolph_angles.py lines 38-48), tracking the number `r`
of strings still to be produced: a whole length block is emitted when it does
not overshoot (the early return at an exact boundary coincides with emitting
the whole block), otherwise the block is truncated and the loop returns.
The structural recursion runs on a fuel argument; every pass consumes at
least one of the `r` remaining strings, so `fuel = r` recovers the loop
exactly (`prefixLoop_length` below certifies the count). -/
def prefixLoop : ℕ → ℕ → ℕ → List (List Bool)
  | 0, _, _ => []
  | fuel + 1, r, len =>
    if r = 0 then []
    else if 2 ^ len ≤ r then
      blockAt len ++ prefixLoop fuel (r - 2 ^ len) (len + 1)
    else (blockAt len).take r

/-- Embedding of `GroverRudolphAngles.generate_prefix_binary_sequence`:
`card - 2` binary strings enumerated by increasing length starting at
length 1 (the empty case mirrors the early return for `card ≤ 2`). -/
def generate_prefix_binary_sequence (card : ℕ) : List (List Bool) :=
  if card ≤ 2 then [] else prefixLoop (card - 2) (card - 2) 1

/-- Embedding of `GroverRudolphAngles.partition_counter`: render the indices
`0 .. card-1` as `n`-bit strings, reverse each, keep those starting with the
given prefix together with their suffixes, and count the suffixes whose first
character is 0 versus 1.  Python raises IndexError when a kept suffix is
empty; that branch is the second error case. -/
def partition_counter (card : ℕ) (pfx : List Bool) : Except String (ℕ × ℕ) :=
  if card ≤ 2 then
    .error "Cardinality must be greater than 2 for partitioning."
  else
    let n := ceilLog2 card
    let l := pfx.length
    let bin_vals := (List.range card).map (fun i => natToBits n i)
    let rev_bin_vals := bin_vals.map List.reverse
    let cond_bin_vals :=
      (rev_bin_vals.filter (fun s => decide (s.take l = pfx))).map
        (fun s => (s, s.drop l))
    if cond_bin_vals.any (fun q => q.2.isEmpty) then
      .error "string index out of range"
    else
      let list_N0 := cond_bin_vals.filter (fun q => decide (q.2.headD true = false))
      let list_N1 := cond_bin_vals.filter (fun q => decide (q.2.headD false = true))
      .ok (list_N0.length, list_N1.length)

/-- Embedding of `GroverRudolphAngles.partition_angle`: fails when both counts
are zero, otherwise records the pair defining the doubled angle. -/
def partition_angle (N0 N1 : ℕ) : Except String GRAngle :=
  if N0 + N1 = 0 then .error "N0 and N1 cannot both be zero."
  else .ok ⟨N0, N1⟩

/-- One iteration of the loop body of `GroverRudolphAngles.get_angles`. -/
def angle_for (card : ℕ) (pfx : List Bool) : Except String GRAngle := do
  let p ← partition_counter card pfx
  partition_angle p.1 p.2

/-- Embedding of `GroverRudolphAngles.get_angles`: the empty prefix followed
by the generated prefix sequence, each turned into an angle. -/
def get_angles (card : ℕ) : Except String (List GRAngle) :=
  (([] : List Bool) :: generate_prefix_binary_sequence card).mapM (angle_for card)

/-- Reference breadth-first enumeration used to state claim C9: `L` length
blocks starting at length `len`, each block listing all strings of that
length in increasing numeric order. -/
def bfsChunks : ℕ → ℕ → List (List Bool)
  | _, 0 => []
  | len, L + 1 => blockAt len ++ bfsChunks (len + 1) L

/- ----------------------------------------------------------------- -/
/- src/utility/grover_rudolph_circuit.py                              -/
/- ----------------------------------------------------------------- -/

/-- Circuit operations emitted by the embedded builders.  Qubits are integer
positions; for the Grover-Rudolph circuit, position `i` denotes the `i`-th
entry of the reversed qubit list built at
src/utility/grover_rudolph_circuit.py line 107.  A control is a pair of a
qubit position and its required value.  `controlledGray` stores the two
binary strings held by a `gray_code_gate` controlled on the ancilla. -/
inductive Operation where
  | rotation (target : ℕ) (angle : GRAngle)
  | controlledRotation (controls : List (ℕ × Bool)) (target : ℕ) (angle : GRAngle)
  | controlledFlip (controls : List (ℕ × Bool)) (target : ℕ)
  | controlledGray (control : ℕ) (s1 s2 : List Bool)
deriving DecidableEq, Repr

/-- Qubit positions an operation acts on.  A `controlledGray` with first
string of length `m` acts on its ancilla control and the `m` data qubits the
underlying gray-code gate is applied to. -/
def Operation.qubits : Operation → List ℕ
  | .rotation t _ => [t]
  | .controlledRotation cs t _ => cs.map Prod.fst ++ [t]
  | .controlledFlip cs t => cs.map Prod.fst ++ [t]
  | .controlledGray c s1 _ => c :: List.range s1.length

/-- Result of `GroverRudolphCircuit.control_tag` with the source's field
names: control group size `l`, position `R` within the group, the binary
signature, and the control signature (the signature characters as integers). -/
structure ControlTag where
  l : ℕ
  R : ℕ
  bin_sig : List Bool
  ctrl_sig : List ℕ
deriving DecidableEq, Repr

/-- Embedding of `GroverRudolphCircuit.control_tag`
(src/utility/grover_rudolph_circuit.py lines 28-57). -/
def control_tag (c : ℕ) : ControlTag :=
  let l := ceilLog2 c - 1
  let R := (c - 1) - 2 ^ l
  let bin_sig := pyBinFormat R l
  { l := l, R := R, bin_sig := bin_sig,
    ctrl_sig := bin_sig.map (fun b => if b then 1 else 0) }

/-- Embedding of the `GroverRudolphCircuit.__init__` validation. -/
def mkGroverRudolphCircuit (card : ℕ) : Except String ℕ :=
  if card ≤ 2 then
    .error "Cardinality must be greater than 2 for generating circuit."
  else .ok card

/-- One controlled rotation of the step loop of `generate_circuit`
(src/utility/grover_rudolph_circuit.py lines 117-136): controls are the qubit
group `[0, l)` paired with the step's binary signature, the target is qubit
`l`, and the angle is `angle_lst[step - 2]`. -/
def stepOp (angle_lst : List GRAngle) (step : ℕ) : Except String Operation :=
  let t := control_tag step
  match angle_lst[step - 2]? with
  | none => .error "list index out of range"
  | some a => .ok (.controlledRotation ((List.range t.l).zip t.bin_sig) t.l a)

/-- Body of `GroverRudolphCircuit.generate_circuit` after the angle list has
been computed (src/utility/grover_rudolph_circuit.py lines 110-138),
including the dead `card == 2` branch kept by the source after its own
`card ≤ 2` guard: the initial uncontrolled rotation on qubit 0 with
`angle_lst[0]`, then one controlled rotation per step in `[3, card]`. -/
def gc_afterAngles (card : ℕ) (angle_lst : List GRAngle) : Except String (List Operation) :=
  if card = 2 then
    match angle_lst[0]? with
    | none => .error "list index out of range"
    | some a => .ok [.rotation 0 a]
  else
    match angle_lst[0]? with
    | none => .error "list index out of range"
    | some a0 =>
      match (List.range' 3 (card - 2)).mapM (stepOp angle_lst) with
      | .error e => .error e
      | .ok rest => .ok (.rotation 0 a0 :: rest)

/-- Embedding of `GroverRudolphCircuit.generate_circuit`
(src/utility/grover_rudolph_circuit.py lines 79-138): the two validation
guards, the internal angle computation, then the rotation sequence. -/
def generate_circuit (card num_qbs : ℕ) : Except String (List Operation) :=
  if card ≤ 2 then .error "Card must be greater than 2"
  else if num_qbs = 0 ∨ num_qbs < ceilLog2 card then .error "Too few qubits!"
  else
    match get_angles card with
    | .error e => .error e
    | .ok angle_lst => gc_afterAngles card angle_lst

/- ----------------------------------------------------------------- -/
/- src/utility/permutation_circuits.py                                -/
/- ----------------------------------------------------------------- -/

/-- Embedding of `gray_code_gate._decompose_`
(src/utility/permutation_circuits.py lines 49-57) given the XOR vector:
the enumeration index is threaded explicitly, and each position whose bit is
set contributes one Pauli X target. -/
def grayFlipTargets : ℕ → List Bool → List ℕ
  | _, [] => []
  | i, b :: rest => (if b then [i] else []) ++ grayFlipTargets (i + 1) rest

/-- Targets flipped by `gray_code_gate._decompose_` on two binary strings:
the bitwise XOR of the strings (zip truncates at the shorter one, as Python's
`zip` does), then one X per set bit. -/
def gray_code_gate_decompose (s1 s2 : List Bool) : List ℕ :=
  grayFlipTargets 0 (List.zipWith xor s1 s2)

/-- Embedding of `permutation_cycle_gate`: the constructor validation of
src/utility/permutation_circuits.py line 165 followed by `_decompose_`
(lines 171-196).  Data qubits are positions `0 .. n-1` and the ancilla is
position `n`.  Python's `self.cycle[0]` raises IndexError on an empty cycle,
the second error case. -/
def permutation_cycle_gate_ops (n : ℕ) (cycle : List ℕ) : Except String (List Operation) :=
  if ¬ cycle.all (fun x => decide (x < 2 ^ n)) then
    .error "Cycle contains integers outside range for n-bit strings."
  else
    match cycle with
    | [] => .error "list index out of range"
    | x0 :: _ =>
      let l := cycle.length
      let body := (List.range l).map (fun k =>
        let xk := cycle.getD k 0
        let xk1 := cycle.getD ((k + 1) % l) 0
        [Operation.controlledFlip ((List.range n).zip (pyBinFormat xk n)) n,
         Operation.controlledGray n (pyBinFormat xk n) (pyBinFormat xk1 n)])
      .ok (body.flatten ++
        [Operation.controlledFlip ((List.range n).zip (pyBinFormat x0 n)) n])

/- ----------------------------------------------------------------- -/
/- src/main.py                                                        -/
/- ----------------------------------------------------------------- -/

/-- Embedding of the error-checking block of `main` (src/main.py lines
21-27): the length test, the `max(target_subset) > 2**num_qubits` test, and
the `isinstance` test, which is identically true for integer lists and hence
has no error branch in this embedding. -/
def mainValidate (num_qubits cardinality : ℕ) (target_subset : List ℤ) : Except String Unit :=
  if target_subset.length ≠ cardinality then
    .error "The length of the target subset and the cardinality do not match!."
  else
    match target_subset.max? with
    | none => .error "max() arg is an empty sequence"
    | some m =>
      if m > (2 : ℤ) ^ num_qubits then .error "The value exceeds the range"
      else .ok ()

/-- Embedding of the `gr_gate.__init__` validation
(src/utility/grover_rudolph_circuit.py lines 141-155). -/
def mkGrGate (num_qubits card : ℕ) : Except String Unit :=
  if card ≤ 2 then
    .error "Cardinality must be greater than 2 for generating gate."
  else if num_qubits = 0 ∨ num_qubits < ceilLog2 card then .error "Too few qubits!"
  else .ok ()

/-- Embedding of `gr_gate._decompose_`
(src/utility/grover_rudolph_circuit.py lines 164-170): the decomposition is
handed some tuple of qubits, raises when its size differs from the gate's
own `num_qubits`, and otherwise yields the operations of
`generate_circuit` on that `num_qubits`. -/
def gr_gate_decompose (num_qubits card qubit_count : ℕ) : Except String (List Operation) :=
  if qubit_count ≠ num_qubits then
    .error "Expected num_qubits qubits, but got a different number."
  else generate_circuit card num_qubits

/-- Embedding of the whole of `main` (src/main.py lines 13-82) for
non-negative target subsets: validation, cycle decomposition (fuelled, since
`permutation_cycles` can diverge), the angle generator (constructor then
`get_angles`, src/main.py lines 46-47), the `gr_gate` constructor
(line 63), then the decomposition call of line 66 — which hands the gate
`qubits = ws_qubits + [ancilla]`, that is `num_qubits + 1` wires, so the
qubit-count guard of `gr_gate._decompose_` fires whenever it is reached —
and finally one permutation-cycle fragment per cycle.  `none` means the
cycle decomposition had still not terminated within the fuel. -/
def mainFuel (num_qubits cardinality : ℕ) (target_subset : List ℕ) (fuel : ℕ) :
    Option (Except String (List Operation)) :=
  match mainValidate num_qubits cardinality (target_subset.map Int.ofNat) with
  | .error e => some (.error e)
  | .ok _ =>
    match permutation_cycles target_subset fuel with
    | none => none
    | some cycles =>
      match mkGroverRudolphAngles cardinality with
      | .error e => some (.error e)
      | .ok _ =>
        match get_angles cardinality with
        | .error e => some (.error e)
        | .ok _ =>
          match mkGrGate num_qubits cardinality with
          | .error e => some (.error e)
          | .ok _ =>
            match gr_gate_decompose num_qubits cardinality (num_qubits + 1) with
            | .error e => some (.error e)
            | .ok grOps =>
              match cycles.mapM (permutation_cycle_gate_ops num_qubits) with
              | .error e => some (.error e)
              | .ok frags => some (.ok (grOps ++ frags.flatten))

/-- Length of the operation list inside a successful result, used to state
counterexamples without comparing whole operation lists. -/
def exceptOkLength (e : Except String (List Operation)) : Option ℕ :=
  match e with
  | .ok ops => some ops.length
  | .error _ => none

/-- Value of a binary string read least-significant-bit first, used to name
the index whose reversed rendering starts with a given prefix. -/
def ofBitsLSB : List Bool → ℕ
  | [] => 0
  | b :: rest => (if b then 1 else 0) + 2 * ofBitsLSB rest

/- ----------------------------------------------------------------- -/
/- Helper lemmas                                                      -/
/- ----------------------------------------------------------------- -/

/-- When every value of the mapping is itself a valid index, the inner while
loop of `permutation_cycles` never reaches its exit condition. -/
theorem followLoop_none (t : List ℕ) (d : ℕ) (ht : ∀ j, j < d → t.getD j 0 < d) :
    ∀ fuel j used cycle, j < d → followLoop t d fuel j used cycle = none := by
  intro fuel
  induction fuel with
  | zero => intro j used cycle _; rfl
  | succ fuel ih =>
    intro j used cycle hj
    simp only [followLoop, if_pos hj]
    exact ih _ _ _ (ht j hj)

theorem bitLenAux_eq : ∀ fuel n, n ≤ fuel →
    bitLenAux fuel n = if n = 0 then 0 else Nat.log 2 n + 1 := by
  intro fuel
  induction fuel with
  | zero => intro n hn; interval_cases n; rfl
  | succ fuel ih =>
    intro n hn
    by_cases h0 : n = 0
    · simp [h0, bitLenAux]
    · have hdiv : n / 2 ≤ fuel := by omega
      rw [bitLenAux, if_neg h0, if_neg h0, ih (n / 2) hdiv]
      by_cases h1 : n / 2 = 0
      · have : n = 1 := by omega
        simp [h1, this]
      · have h2 : 2 ≤ n := by omega
        have hlog : Nat.log 2 (n / 2) = Nat.log 2 n - 1 := Nat.log_div_base 2 n
        have hpos : 1 ≤ Nat.log 2 n :=
          (Nat.pow_le_iff_le_log (by norm_num) (by omega)).mp (by simpa using h2)
        rw [if_neg h1]
        omega

theorem bitLen_eq (n : ℕ) : bitLen n = if n = 0 then 0 else Nat.log 2 n + 1 :=
  bitLenAux_eq n n le_rfl

theorem clog_eq_log_succ (c : ℕ) (hc : 2 ≤ c) :
    Nat.clog 2 c = Nat.log 2 (c - 1) + 1 := by
  have h1 : 2 ^ Nat.log 2 (c - 1) ≤ c - 1 := Nat.pow_log_le_self 2 (by omega)
  have h2 : c - 1 < 2 ^ (Nat.log 2 (c - 1) + 1) :=
    Nat.lt_pow_succ_log_self (by norm_num) (c - 1)
  have hup : Nat.clog 2 c ≤ Nat.log 2 (c - 1) + 1 :=
    (Nat.le_pow_iff_clog_le (by norm_num)).mp (by omega)
  have hlo : Nat.log 2 (c - 1) < Nat.clog 2 c :=
    (Nat.pow_lt_iff_lt_clog (by norm_num)).mp (by omega)
  omega

theorem ceilLog2_eq_clog (c : ℕ) : ceilLog2 c = Nat.clog 2 c := by
  by_cases hc : 2 ≤ c
  · rw [ceilLog2, bitLen_eq, if_neg (by omega), clog_eq_log_succ c hc]
  · interval_cases c
    · rw [Nat.clog_zero_right]; rfl
    · rw [Nat.clog_one_right]; rfl

theorem natToBits_length (len x : ℕ) : (natToBits len x).length = len := by
  simp [natToBits]

theorem natToBits_reverse (len x : ℕ) :
    (natToBits len x).reverse = (List.range len).map x.testBit := by
  simp [natToBits]

theorem pyBitLen_le {x l : ℕ} (h1 : 1 ≤ l) (h2 : x < 2 ^ l) : pyBitLen x ≤ l := by
  rw [pyBitLen, bitLen_eq]
  by_cases h0 : x = 0
  · simp [h0]; omega
  · rw [if_neg h0]
    have := Nat.log_lt_of_lt_pow h0 h2
    omega

theorem pyBinFormat_eq {x l : ℕ} (h1 : 1 ≤ l) (h2 : x < 2 ^ l) :
    pyBinFormat x l = natToBits l x := by
  rw [pyBinFormat, max_eq_left (pyBitLen_le h1 h2)]

theorem pyBinFormat_length {x n : ℕ} (h : x < 2 ^ n) :
    (pyBinFormat x n).length = max n 1 := by
  rcases Nat.eq_zero_or_pos n with hn | hn
  · subst hn
    have : x = 0 := by omega
    subst this
    rfl
  · rw [pyBinFormat_eq hn h, natToBits_length]
    omega

theorem ofBitsLSB_lt : ∀ p : List Bool, ofBitsLSB p < 2 ^ p.length := by
  intro p
  induction p with
  | nil => simp [ofBitsLSB]
  | cons b rest ih =>
    simp only [ofBitsLSB, List.length_cons, pow_succ]
    cases b <;> simp <;> omega

theorem testBit_ofBitsLSB : ∀ (p : List Bool) (j : ℕ), j < p.length →
    (ofBitsLSB p).testBit j = p.getD j false := by
  intro p
  induction p with
  | nil => intro j hj; simp at hj
  | cons b rest ih =>
    intro j hj
    cases j with
    | zero =>
      rw [ofBitsLSB]
      cases b <;> simp [Nat.testBit_zero, Nat.add_mul_mod_self_left]
    | succ j =>
      rw [Nat.testBit_succ, ofBitsLSB]
      have : ((if b then 1 else 0) + 2 * ofBitsLSB rest) / 2 = ofBitsLSB rest := by
        cases b
        · simp
        · simp
          omega
      rw [this]
      exact ih j (by simpa using hj)

theorem blockAt_length (len : ℕ) : (blockAt len).length = 2 ^ len := by
  simp [blockAt]

theorem length_eq_of_mem_blockAt {len : ℕ} {p : List Bool} (h : p ∈ blockAt len) :
    p.length = len := by
  obtain ⟨i, _, rfl⟩ := List.mem_map.mp h
  exact natToBits_length len i

theorem mem_prefixLoop_pow_lt : ∀ fuel r len p, r ≤ fuel → p ∈ prefixLoop fuel r len →
    2 ^ p.length < r + 2 ^ len := by
  intro fuel
  induction fuel with
  | zero =>
    intro r len p hr hp
    simp [prefixLoop] at hp
  | succ fuel ih =>
    intro r len p hr hp
    rw [prefixLoop] at hp
    by_cases h0 : r = 0
    · simp [h0] at hp
    rw [if_neg h0] at hp
    by_cases hb : 2 ^ len ≤ r
    · rw [if_pos hb] at hp
      rcases List.mem_append.mp hp with h | h
      · rw [length_eq_of_mem_blockAt h]
        omega
      · have hpos : 0 < 2 ^ len := pow_pos (by norm_num) len
        have hrec := ih (r - 2 ^ len) (len + 1) p (by omega) h
        have hpow : 2 ^ (len + 1) = 2 * 2 ^ len := by rw [pow_succ]; ring
        omega
    · rw [if_neg hb] at hp
      rw [length_eq_of_mem_blockAt (List.mem_of_mem_take hp)]
      omega

theorem prefixLoop_length : ∀ fuel r len, r ≤ fuel → (prefixLoop fuel r len).length = r := by
  intro fuel
  induction fuel with
  | zero =>
    intro r len hr
    interval_cases r
    rfl
  | succ fuel ih =>
    intro r len hr
    rw [prefixLoop]
    by_cases h0 : r = 0
    · simp [h0]
    rw [if_neg h0]
    by_cases hb : 2 ^ len ≤ r
    · have hpos : 0 < 2 ^ len := pow_pos (by norm_num) len
      rw [if_pos hb, List.length_append, blockAt_length,
        ih (r - 2 ^ len) (len + 1) (by omega)]
      omega
    · rw [if_neg hb, List.length_take, blockAt_length]
      omega

theorem bfsChunks_le_length : ∀ L len, L ≤ (bfsChunks len L).length := by
  intro L
  induction L with
  | zero => intro len; simp [bfsChunks]
  | succ L ih =>
    intro len
    have hpos : 0 < 2 ^ len := pow_pos (by norm_num) len
    rw [bfsChunks, List.length_append, blockAt_length]
    have := ih (len + 1)
    omega

theorem prefixLoop_eq_take : ∀ L fuel len r, r ≤ fuel →
    r ≤ (bfsChunks len L).length →
    prefixLoop fuel r len = (bfsChunks len L).take r := by
  intro L
  induction L with
  | zero =>
    intro fuel len r hf hr
    simp only [bfsChunks, List.length_nil, Nat.le_zero] at hr
    subst hr
    cases fuel with
    | zero => simp [prefixLoop, bfsChunks]
    | succ f => simp [prefixLoop, bfsChunks]
  | succ L ih =>
    intro fuel len r hf hr
    by_cases h0 : r = 0
    · subst h0
      cases fuel with
      | zero => simp [prefixLoop]
      | succ f => simp [prefixLoop]
    obtain ⟨f, rfl⟩ : ∃ f, fuel = f + 1 := ⟨fuel - 1, by omega⟩
    rw [prefixLoop, if_neg h0, bfsChunks]
    rw [bfsChunks, List.length_append, blockAt_length] at hr
    by_cases hb : 2 ^ len ≤ r
    · have hpos : 0 < 2 ^ len := pow_pos (by norm_num) len
      rw [if_pos hb, List.take_append_eq_append_take, blockAt_length,
        List.take_of_length_le (by rw [blockAt_length]; exact hb),
        ih f (len + 1) (r - 2 ^ len) (by omega) (by omega)]
    · rw [if_neg hb, List.take_append_eq_append_take, blockAt_length,
        Nat.sub_eq_zero_of_le (by omega), List.take_zero, List.append_nil]

theorem generate_prefix_eq_take {card : ℕ} (h : 2 < card) :
    generate_prefix_binary_sequence card = (bfsChunks 1 card).take (card - 2) := by
  rw [generate_prefix_binary_sequence, if_neg (by omega)]
  exact prefixLoop_eq_take card (card - 2) 1 (card - 2) le_rfl
    (le_trans (by omega) (bfsChunks_le_length card 1))

theorem two_le_ceilLog2 {card : ℕ} (h : 2 < card) : 2 ≤ ceilLog2 card := by
  rw [ceilLog2_eq_clog]
  have h1 : (1 : ℕ) < Nat.clog 2 card :=
    (Nat.pow_lt_iff_lt_clog (by norm_num)).mp (by simpa using h)
  omega

theorem card_le_pow_ceilLog2 (card : ℕ) : card ≤ 2 ^ ceilLog2 card := by
  rw [ceilLog2_eq_clog]
  exact Nat.le_pow_clog (by norm_num) card

theorem pow_pred_ceilLog2_lt {card : ℕ} (h : 2 < card) :
    2 ^ (ceilLog2 card - 1) < card := by
  rw [ceilLog2_eq_clog]
  have := @Nat.pow_pred_clog_lt_self 2 (by norm_num) card (by omega)
  simpa [Nat.pred_eq_sub_one] using this

theorem reverse_natToBits_take {n l x : ℕ} (hl : l ≤ n) :
    ((natToBits n x).reverse).take l = (List.range l).map x.testBit := by
  rw [natToBits_reverse, ← List.map_take, List.take_range, min_eq_left hl]

theorem partition_counter_ok {card : ℕ} (hcard : 2 < card) (pfx : List Bool)
    (hlen : pfx.length + 1 ≤ ceilLog2 card) :
    ∃ N0 N1, partition_counter card pfx = .ok (N0, N1) ∧ 0 < N0 + N1 := by
  have hn1 : 2 ≤ ceilLog2 card := two_le_ceilLog2 hcard
  have hln : pfx.length ≤ ceilLog2 card - 1 := by omega
  have hvlt : ofBitsLSB pfx < card := by
    have h1 : ofBitsLSB pfx < 2 ^ pfx.length := ofBitsLSB_lt pfx
    have h2 : (2 : ℕ) ^ pfx.length ≤ 2 ^ (ceilLog2 card - 1) :=
      Nat.pow_le_pow_right (by norm_num) hln
    have h3 := pow_pred_ceilLog2_lt hcard
    omega
  -- the reversed rendering of the witness index starts with the prefix
  have hstake : ((natToBits (ceilLog2 card) (ofBitsLSB pfx)).reverse).take pfx.length = pfx := by
    rw [reverse_natToBits_take (by omega)]
    apply List.ext_getElem
    · simp
    · intro j h1 h2
      simp only [List.getElem_map, List.getElem_range]
      rw [testBit_ofBitsLSB pfx j (by simpa using h2),
        List.getD_eq_getElem pfx false (by simpa using h2)]
  -- every kept pair has a suffix of positive length
  have hlenmem : ∀ q ∈ ((((List.range card).map
        (fun i => natToBits (ceilLog2 card) i)).map List.reverse).filter
        (fun s => decide (s.take pfx.length = pfx))).map
        (fun s => (s, s.drop pfx.length)), 0 < q.2.length := by
    intro q hq
    obtain ⟨s, hs, rfl⟩ := List.mem_map.mp hq
    have hs' := List.mem_of_mem_filter hs
    obtain ⟨s0, hs0, rfl⟩ := List.mem_map.mp hs'
    obtain ⟨i, _, rfl⟩ := List.mem_map.mp hs0
    simp only [List.length_drop, List.length_reverse, natToBits_length]
    omega
  have hwit : ((natToBits (ceilLog2 card) (ofBitsLSB pfx)).reverse,
      ((natToBits (ceilLog2 card) (ofBitsLSB pfx)).reverse).drop pfx.length) ∈
      ((((List.range card).map (fun i => natToBits (ceilLog2 card) i)).map
        List.reverse).filter (fun s => decide (s.take pfx.length = pfx))).map
        (fun s => (s, s.drop pfx.length)) := by
    apply List.mem_map.mpr
    refine ⟨(natToBits (ceilLog2 card) (ofBitsLSB pfx)).reverse, ?_, rfl⟩
    apply List.mem_filter.mpr
    refine ⟨?_, by simpa using hstake⟩
    exact List.mem_map.mpr ⟨_, List.mem_map.mpr
      ⟨ofBitsLSB pfx, List.mem_range.mpr hvlt, rfl⟩, rfl⟩
  rw [partition_counter, if_neg (by omega)]
  simp only []
  rw [if_neg ?hany]
  case hany =>
    intro hcon
    obtain ⟨q, hq, hqe⟩ := List.any_eq_true.mp hcon
    have := hlenmem q hq
    rw [List.isEmpty_iff] at hqe
    simp [hqe] at this
  refine ⟨_, _, rfl, ?_⟩
  have hpos := hlenmem _ hwit
  obtain ⟨b, tl, hcons⟩ := List.exists_cons_of_ne_nil
    (List.ne_nil_of_length_pos hpos)
  cases b
  · have h0 : (0 : ℕ) <
        ((((((List.range card).map (fun i => natToBits (ceilLog2 card) i)).map
          List.reverse).filter (fun s => decide (s.take pfx.length = pfx))).map
          (fun s => (s, s.drop pfx.length))).filter
          (fun q => decide (q.2.headD true = false))).length := by
      apply List.length_pos_of_mem
      apply List.mem_filter.mpr
      exact ⟨hwit, by rw [hcons]; simp⟩
    omega
  · have h1 : (0 : ℕ) <
        ((((((List.range card).map (fun i => natToBits (ceilLog2 card) i)).map
          List.reverse).filter (fun s => decide (s.take pfx.length = pfx))).map
          (fun s => (s, s.drop pfx.length))).filter
          (fun q => decide (q.2.headD false = true))).length := by
      apply List.length_pos_of_mem
      apply List.mem_filter.mpr
      exact ⟨hwit, by rw [hcons]; simp⟩
    omega

theorem exceptMapM_ok_map {α β : Type} (f : α → Except String β) (g : α → β) :
    ∀ l : List α, (∀ x ∈ l, f x = .ok (g x)) → l.mapM f = .ok (l.map g) := by
  intro l
  induction l with
  | nil => intro _; rfl
  | cons a l ih =>
    intro h
    rw [List.mapM_cons, h a (List.mem_cons_self a l),
      ih (fun x hx => h x (List.mem_cons_of_mem a hx))]
    rfl

theorem exceptMapM_ok_exists {α β : Type} (f : α → Except String β) :
    ∀ l : List α, (∀ x ∈ l, ∃ y, f x = .ok y) →
    ∃ res, l.mapM f = .ok res ∧ res.length = l.length := by
  intro l
  induction l with
  | nil => intro _; exact ⟨[], rfl, rfl⟩
  | cons a l ih =>
    intro h
    obtain ⟨y, hy⟩ := h a (List.mem_cons_self a l)
    obtain ⟨res, hres, hl⟩ := ih (fun x hx => h x (List.mem_cons_of_mem a hx))
    refine ⟨y :: res, ?_, by simp [hl]⟩
    rw [List.mapM_cons, hy, hres]
    rfl

theorem mem_angle_seq_length {card : ℕ} (h : 2 < card) :
    ∀ p ∈ (([] : List Bool) :: generate_prefix_binary_sequence card),
      p.length + 1 ≤ ceilLog2 card := by
  intro p hp
  have hn := two_le_ceilLog2 h
  rcases List.mem_cons.mp hp with rfl | hp
  · simpa using by omega
  · rw [generate_prefix_binary_sequence, if_neg (by omega)] at hp
    have hmem := mem_prefixLoop_pow_lt (card - 2) (card - 2) 1 p le_rfl hp
    have hple : 2 ^ p.length < card := by
      have h21 : (2 : ℕ) ^ 1 = 2 := by norm_num
      omega
    have hcard := card_le_pow_ceilLog2 card
    have : p.length < ceilLog2 card := by
      by_contra hcon
      push_neg at hcon
      have : 2 ^ ceilLog2 card ≤ 2 ^ p.length := Nat.pow_le_pow_right (by norm_num) hcon
      omega
    omega

theorem angle_for_ok {card : ℕ} (hcard : 2 < card) (pfx : List Bool)
    (hlen : pfx.length + 1 ≤ ceilLog2 card) :
    ∃ a, angle_for card pfx = .ok a := by
  obtain ⟨N0, N1, hc, hpos⟩ := partition_counter_ok hcard pfx hlen
  refine ⟨⟨N0, N1⟩, ?_⟩
  unfold angle_for
  rw [hc]
  show partition_angle N0 N1 = _
  rw [partition_angle, if_neg (by omega)]

theorem get_angles_ok {card : ℕ} (hcard : 2 < card) :
    ∃ lst, get_angles card = .ok lst ∧ lst.length = card - 1 := by
  obtain ⟨res, hres, hl⟩ := exceptMapM_ok_exists (angle_for card) _
    (fun p hp => angle_for_ok hcard p (mem_angle_seq_length hcard p hp))
  refine ⟨res, hres, ?_⟩
  rw [hl, List.length_cons, generate_prefix_binary_sequence, if_neg (by omega),
    prefixLoop_length (card - 2) (card - 2) 1 le_rfl]
  omega

theorem control_tag_spec {c : ℕ} (hc : 3 ≤ c) :
    (control_tag c).l = Nat.clog 2 c - 1 ∧
    (control_tag c).l = Nat.log 2 (c - 1) ∧
    (control_tag c).R + 2 ^ (control_tag c).l = c - 1 ∧
    (control_tag c).R < 2 ^ (control_tag c).l ∧
    (control_tag c).bin_sig = natToBits (control_tag c).l (control_tag c).R ∧
    (control_tag c).bin_sig.length = (control_tag c).l ∧
    (control_tag c).ctrl_sig = (control_tag c).bin_sig.map (fun b => if b then 1 else 0) := by
  have hl : (control_tag c).l = ceilLog2 c - 1 := rfl
  have hR : (control_tag c).R = (c - 1) - 2 ^ (ceilLog2 c - 1) := rfl
  have hbin : (control_tag c).bin_sig =
      pyBinFormat ((c - 1) - 2 ^ (ceilLog2 c - 1)) (ceilLog2 c - 1) := rfl
  have h2 : 2 ≤ ceilLog2 c := two_le_ceilLog2 (by omega)
  have hlt : 2 ^ (ceilLog2 c - 1) < c := pow_pred_ceilLog2_lt (by omega)
  have hup : c ≤ 2 ^ ceilLog2 c := card_le_pow_ceilLog2 c
  have hpow : 2 ^ ceilLog2 c = 2 * 2 ^ (ceilLog2 c - 1) := by
    conv_lhs => rw [show ceilLog2 c = (ceilLog2 c - 1) + 1 from by omega]
    rw [pow_succ]
    ring
  have hRlt : (c - 1) - 2 ^ (ceilLog2 c - 1) < 2 ^ (ceilLog2 c - 1) := by omega
  have hclog : ceilLog2 c = Nat.clog 2 c := ceilLog2_eq_clog c
  have hlog : Nat.clog 2 c = Nat.log 2 (c - 1) + 1 := clog_eq_log_succ c (by omega)
  refine ⟨by omega, by omega, by rw [hR, hl]; omega, by rw [hR, hl]; exact hRlt, ?_, ?_, rfl⟩
  · rw [hbin, hl, hR, pyBinFormat_eq (by omega) hRlt]
  · rw [hbin, hl, pyBinFormat_eq (by omega) hRlt, natToBits_length]

theorem generate_circuit_ok {card num_qbs : ℕ} (hcard : 2 < card)
    (hq : ceilLog2 card ≤ num_qbs) :
    ∃ ops angles, get_angles card = .ok angles ∧
      generate_circuit card num_qbs = .ok ops ∧
      angles.length = card - 1 ∧
      ops.length = card - 1 ∧
      ops[0]? = some (.rotation 0 (angles.getD 0 ⟨0, 0⟩)) ∧
      ∀ step, 3 ≤ step → step ≤ card →
        ops[step - 2]? = some (.controlledRotation
          ((List.range (control_tag step).l).zip (control_tag step).bin_sig)
          (control_tag step).l (angles.getD (step - 2) ⟨0, 0⟩)) := by
  obtain ⟨angles, hang, hlen⟩ := get_angles_ok hcard
  have h2n : 2 ≤ ceilLog2 card := two_le_ceilLog2 hcard
  have h0 : 0 < angles.length := by omega
  have ha0 : angles[0]? = some (angles.getD 0 ⟨0, 0⟩) := by
    rw [List.getElem?_eq_getElem h0, List.getD_eq_getElem angles ⟨0, 0⟩ h0]
  have hstep : ∀ step ∈ List.range' 3 (card - 2), stepOp angles step =
      .ok (.controlledRotation
        ((List.range (control_tag step).l).zip (control_tag step).bin_sig)
        (control_tag step).l (angles.getD (step - 2) ⟨0, 0⟩)) := by
    intro step hmem
    obtain ⟨i, hi, rfl⟩ := List.mem_range'.mp hmem
    have hidx : 3 + 1 * i - 2 < angles.length := by omega
    rw [stepOp, List.getElem?_eq_getElem hidx,
      List.getD_eq_getElem angles ⟨0, 0⟩ hidx]
  have hmapM := exceptMapM_ok_map (stepOp angles)
    (fun step => Operation.controlledRotation
      ((List.range (control_tag step).l).zip (control_tag step).bin_sig)
      (control_tag step).l (angles.getD (step - 2) ⟨0, 0⟩))
    (List.range' 3 (card - 2)) hstep
  have hgc : generate_circuit card num_qbs = gc_afterAngles card angles := by
    rw [generate_circuit, if_neg (by omega), if_neg (by omega), hang]
  have hbody : gc_afterAngles card angles =
      .ok (.rotation 0 (angles.getD 0 ⟨0, 0⟩) ::
        (List.range' 3 (card - 2)).map
          (fun step => Operation.controlledRotation
            ((List.range (control_tag step).l).zip (control_tag step).bin_sig)
            (control_tag step).l (angles.getD (step - 2) ⟨0, 0⟩))) := by
    rw [gc_afterAngles, if_neg (by omega), ha0, hmapM]
  refine ⟨_, angles, hang, hgc.trans hbody, hlen, ?_, ?_, ?_⟩
  · simp [List.length_range']
    omega
  · exact List.getElem?_cons_zero
  · intro step h3 hstepc
    conv_lhs => rw [show step - 2 = (step - 3) + 1 from by omega]
    rw [List.getElem?_cons_succ, List.getElem?_map,
      List.getElem?_range' 3 1 (show step - 3 < card - 2 by omega),
      show 3 + 1 * (step - 3) = step from by omega]
    rfl

theorem controlledFlip_qubits_spec {n x : ℕ} (hx : x < 2 ^ n) :
    (∀ q ∈ (Operation.controlledFlip ((List.range n).zip (pyBinFormat x n)) n).qubits,
      q ≤ n) ∧
    n ∈ (Operation.controlledFlip ((List.range n).zip (pyBinFormat x n)) n).qubits := by
  constructor
  · intro q hq
    rw [Operation.qubits] at hq
    rcases List.mem_append.mp hq with h | h
    · have hlen2 : (List.range n).length ≤ (pyBinFormat x n).length := by
        rw [List.length_range, pyBinFormat_length hx]
        omega
      rw [List.map_fst_zip _ _ hlen2] at h
      exact le_of_lt (List.mem_range.mp h)
    · rcases List.mem_singleton.mp h with rfl
      exact le_rfl
  · rw [Operation.qubits]
    exact List.mem_append.mpr (Or.inr (List.mem_singleton.mpr rfl))

theorem controlledGray_qubits_spec {n x y : ℕ} (hx : x < 2 ^ n) :
    (∀ q ∈ (Operation.controlledGray n (pyBinFormat x n) (pyBinFormat y n)).qubits,
      q ≤ n) ∧
    n ∈ (Operation.controlledGray n (pyBinFormat x n) (pyBinFormat y n)).qubits := by
  constructor
  · intro q hq
    rw [Operation.qubits] at hq
    rcases List.mem_cons.mp hq with rfl | h
    · exact le_rfl
    · have hql := List.mem_range.mp h
      rw [pyBinFormat_length hx] at hql
      omega
  · rw [Operation.qubits]
    exact List.mem_cons_self n _

theorem permutation_cycle_gate_ops_spec {n : ℕ} {cycle : List ℕ}
    (hne : cycle ≠ []) (hrange : ∀ x ∈ cycle, x < 2 ^ n) :
    ∃ ops, permutation_cycle_gate_ops n cycle = .ok ops ∧
      ops.length = 2 * cycle.length + 1 ∧
      ∀ op ∈ ops, (∀ q ∈ op.qubits, q ≤ n) ∧ n ∈ op.qubits := by
  have hall : cycle.all (fun x => decide (x < 2 ^ n)) = true := by
    rw [List.all_eq_true]
    intro x hx
    simpa using hrange x hx
  obtain ⟨x0, rest, rfl⟩ := List.exists_cons_of_ne_nil hne
  rw [permutation_cycle_gate_ops, if_neg (by simp [hall])]
  refine ⟨_, rfl, ?_, ?_⟩
  · rw [List.length_append, List.length_flatten, List.map_map]
    have hf : (List.length ∘ fun k =>
        [Operation.controlledFlip
          ((List.range n).zip (pyBinFormat ((x0 :: rest).getD k 0) n)) n,
         Operation.controlledGray n (pyBinFormat ((x0 :: rest).getD k 0) n)
          (pyBinFormat ((x0 :: rest).getD ((k + 1) % (x0 :: rest).length) 0) n)]) =
        fun _ => 2 := funext (fun k => rfl)
    rw [hf, List.map_const', List.sum_replicate, List.length_range, smul_eq_mul]
    simp
    ring
  · intro op hop
    have hmemval : ∀ k, k < (x0 :: rest).length → (x0 :: rest).getD k 0 < 2 ^ n := by
      intro k hk
      rw [List.getD_eq_getElem _ 0 hk]
      exact hrange _ (List.getElem_mem hk)
    rcases List.mem_append.mp hop with h | h
    · obtain ⟨pair, hpair, hoppair⟩ := List.mem_flatten.mp h
      obtain ⟨k, hk, rfl⟩ := List.mem_map.mp hpair
      have hkl := List.mem_range.mp hk
      have hx := hmemval k hkl
      have hx1 := hmemval ((k + 1) % (x0 :: rest).length)
        (Nat.mod_lt _ (by simp))
      rcases List.mem_cons.mp hoppair with rfl | h2
      · exact controlledFlip_qubits_spec hx
      · rcases List.mem_singleton.mp h2 with rfl
        exact controlledGray_qubits_spec hx
    · rcases List.mem_singleton.mp h with rfl
      exact controlledFlip_qubits_spec (hmemval 0 (by simp))

theorem mem_grayFlipTargets : ∀ (v : List Bool) (i j : ℕ),
    j ∈ grayFlipTargets i v ↔ ∃ k, k < v.length ∧ j = i + k ∧ v.getD k false = true := by
  intro v
  induction v with
  | nil => intro i j; simp [grayFlipTargets]
  | cons b rest ih =>
    intro i j
    rw [grayFlipTargets]
    constructor
    · intro h
      rcases List.mem_append.mp h with h | h
      · cases b
        · simp at h
        · simp at h
          exact ⟨0, by simp, by omega, rfl⟩
      · obtain ⟨k, hk, hjk, hv⟩ := (ih (i + 1) j).mp h
        refine ⟨k + 1, ?_, by omega, ?_⟩
        · simp only [List.length_cons]
          omega
        · rw [List.getD_cons_succ]
          exact hv
    · rintro ⟨k, hk, rfl, hv⟩
      cases k with
      | zero =>
        apply List.mem_append.mpr
        left
        rw [List.getD_cons_zero] at hv
        rw [hv]
        simp
      | succ k =>
        apply List.mem_append.mpr
        right
        apply (ih (i + 1) (i + (k + 1))).mpr
        refine ⟨k, ?_, by omega, ?_⟩
        · simp only [List.length_cons] at hk
          omega
        · rw [List.getD_cons_succ] at hv
          exact hv

theorem grayFlipTargets_ge : ∀ (v : List Bool) (i j : ℕ),
    j ∈ grayFlipTargets i v → i ≤ j := by
  intro v i j h
  obtain ⟨k, _, rfl, _⟩ := (mem_grayFlipTargets v i j).mp h
  omega

theorem grayFlipTargets_pairwise : ∀ (v : List Bool) (i : ℕ),
    (grayFlipTargets i v).Pairwise (· < ·) := by
  intro v
  induction v with
  | nil => intro i; simp [grayFlipTargets]
  | cons b rest ih =>
    intro i
    rw [grayFlipTargets]
    apply List.pairwise_append.mpr
    refine ⟨?_, ih (i + 1), ?_⟩
    · cases b <;> simp
    · intro a ha c hc
      have hc' := grayFlipTargets_ge rest (i + 1) c hc
      cases b
      · simp at ha
      · simp at ha
        omega

theorem gray_code_gate_spec (s1 s2 : List Bool) (hlen : s1.length = s2.length) :
    (∀ i, i ∈ gray_code_gate_decompose s1 s2 ↔
      (i < s1.length ∧ s1.getD i false ≠ s2.getD i false)) ∧
    (gray_code_gate_decompose s1 s2).Nodup := by
  constructor
  · intro i
    rw [gray_code_gate_decompose, mem_grayFlipTargets]
    have hzlen : (List.zipWith xor s1 s2).length = s1.length := by
      rw [List.length_zipWith]
      omega
    constructor
    · rintro ⟨k, hk, rfl, hv⟩
      rw [hzlen] at hk
      refine ⟨by omega, ?_⟩
      have hglt : 0 + k < (List.zipWith xor s1 s2).length := by omega
      rw [List.getD_eq_getElem _ false (by omega)] at hv
      rw [List.getElem_zipWith] at hv
      simp only [Nat.zero_add] at hv ⊢
      rw [List.getD_eq_getElem s1 false (by omega),
        List.getD_eq_getElem s2 false (by omega)]
      intro hcon
      rw [hcon] at hv
      simp at hv
    · rintro ⟨hi, hne⟩
      refine ⟨i, by omega, by omega, ?_⟩
      rw [List.getD_eq_getElem _ false (by omega), List.getElem_zipWith]
      rw [List.getD_eq_getElem s1 false (by omega),
        List.getD_eq_getElem s2 false (by omega)] at hne
      revert hne
      cases s1[i] <;> cases s2[i] <;> simp
  · exact (grayFlipTargets_pairwise _ 0).imp (fun h => Nat.ne_of_lt h)

/- ----------------------------------------------------------------- -/
/- Claim theorems                                                     -/
/- ----------------------------------------------------------------- -/

/-- C1: the claim expects `permutation_cycles` to return a set partition for
every permutation-like target subset, but on the transposition `[1, 0]`
(gr_subset `[0, 1]`, d = 2) the inner while loop never reaches its exit
condition `j ≥ d` — every followed value stays in range — so the function
never returns anything at all: for every fuel bound the embedded loop is
still running. -/
theorem permutation_cycles_swap_never_returns :
    ∀ fuel, permutation_cycles [1, 0] fuel = none := by
  intro fuel
  have ht : ∀ j, j < 2 → ([1, 0] : List ℕ).getD j 0 < 2 := by decide
  have hf := followLoop_none [1, 0] 2 ht fuel 1 [false, false] [0, 1] (by norm_num)
  show cyclesLoop [1, 0] 2 fuel [0, 1] [false, false] [] = none
  rw [cyclesLoop, if_neg (by decide)]
  have hg : ([1, 0] : List ℕ).getD 0 0 = 1 := rfl
  rw [hg, hf]

/-- C2: the claim asserts termination of the cycle-following loop on every
input, singling out `target_subset = [1, 3, 0, 2]`; on that very input the
loop `j ← target_subset[j]` visits `1, 3, 2, 0, 1, …` forever, never leaving
the valid index range, so `permutation_cycles` returns nothing for any fuel
bound. -/
theorem permutation_cycles_nonterminating_on_derangement :
    ∀ fuel, permutation_cycles [1, 3, 0, 2] fuel = none := by
  intro fuel
  have ht : ∀ j, j < 4 → ([1, 3, 0, 2] : List ℕ).getD j 0 < 4 := by decide
  have hf := followLoop_none [1, 3, 0, 2] 4 ht fuel 1
    [false, false, false, false] [0, 1] (by norm_num)
  show cyclesLoop [1, 3, 0, 2] 4 fuel [0, 1, 2, 3]
    [false, false, false, false] [] = none
  rw [cyclesLoop, if_neg (by decide)]
  have hg : ([1, 3, 0, 2] : List ℕ).getD 0 0 = 1 := rfl
  rw [hg, hf]

/-- C3: for `card > 2`, `generate_circuit` errors exactly when
`num_qubits < ceil(log2 card)` (and the class constructor errors for
`card ≤ 2`); otherwise it returns `card - 1` rotations: an uncontrolled
rotation on qubit 0 carrying `angle[0]`, then for every step in `[3, card]`
a controlled rotation whose controls are qubits `[0, l)` carrying the step's
binary control signature, whose target is qubit `l`, and whose angle is
`angle[step - 2]`, where `l = ceil(log2 step) - 1`. -/
theorem generate_circuit_contract :
    ∀ card num_qbs : ℕ,
      (card ≤ 2 → ∃ e, mkGroverRudolphCircuit card = Except.error e) ∧
      (2 < card →
        (num_qbs < Nat.clog 2 card →
          ∃ e, generate_circuit card num_qbs = Except.error e) ∧
        (Nat.clog 2 card ≤ num_qbs →
          ∃ ops angles, get_angles card = Except.ok angles ∧
            generate_circuit card num_qbs = Except.ok ops ∧
            ops.length = card - 1 ∧
            ops[0]? = some (Operation.rotation 0 (angles.getD 0 ⟨0, 0⟩)) ∧
            ∀ step, 3 ≤ step → step ≤ card →
              ops[step - 2]? = some (Operation.controlledRotation
                ((List.range (Nat.clog 2 step - 1)).zip
                  (natToBits (Nat.clog 2 step - 1)
                    (step - 1 - 2 ^ (Nat.clog 2 step - 1))))
                (Nat.clog 2 step - 1)
                (angles.getD (step - 2) ⟨0, 0⟩)))) := by
  intro card num_qbs
  refine ⟨fun h => ⟨_, by rw [mkGroverRudolphCircuit, if_pos h]⟩,
    fun hcard => ⟨?_, ?_⟩⟩
  · intro hlt
    refine ⟨"Too few qubits!", ?_⟩
    rw [generate_circuit, if_neg (by omega),
      if_pos (Or.inr (by rw [ceilLog2_eq_clog]; exact hlt))]
  · intro hge
    have hge' : ceilLog2 card ≤ num_qbs := by rw [ceilLog2_eq_clog]; exact hge
    obtain ⟨ops, angles, hang, hgen, _, hopslen, h0, hstep⟩ :=
      generate_circuit_ok hcard hge'
    refine ⟨ops, angles, hang, hgen, hopslen, h0, ?_⟩
    intro step h3 hc
    obtain ⟨hl1, _, hR, _, hbin, _, _⟩ := control_tag_spec h3
    have hthis := hstep step h3 hc
    have hReq : (control_tag step).R = step - 1 - 2 ^ (control_tag step).l := by
      omega
    rw [hthis, hbin, hReq, hl1]

/-- Witness for C3 at `card = 5`: the constructor rejects cardinality 2,
2 qubits are rejected (`ceil(log2 5) = 3`), and with 3 qubits the circuit
contract is realized. -/
theorem generate_circuit_contract_witness :
    (∃ e, mkGroverRudolphCircuit 2 = Except.error e) ∧
    (∃ e, generate_circuit 5 2 = Except.error e) ∧
    (∃ ops angles, get_angles 5 = Except.ok angles ∧
      generate_circuit 5 3 = Except.ok ops ∧
      ops.length = 5 - 1 ∧
      ops[0]? = some (Operation.rotation 0 (angles.getD 0 ⟨0, 0⟩)) ∧
      ∀ step, 3 ≤ step → step ≤ 5 →
        ops[step - 2]? = some (Operation.controlledRotation
          ((List.range (Nat.clog 2 step - 1)).zip
            (natToBits (Nat.clog 2 step - 1)
              (step - 1 - 2 ^ (Nat.clog 2 step - 1))))
          (Nat.clog 2 step - 1)
          (angles.getD (step - 2) ⟨0, 0⟩))) := by
  have h5 : Nat.clog 2 5 = 3 := by rw [← ceilLog2_eq_clog]; rfl
  exact ⟨(generate_circuit_contract 2 0).1 (by norm_num),
    ((generate_circuit_contract 5 2).2 (by norm_num)).1 (by omega),
    ((generate_circuit_contract 5 3).2 (by norm_num)).2 (by omega)⟩

/-- C4: the angle generator errors at construction exactly when `card ≤ 2`
(so cardinality 3 is the smallest accepted input), and for every `card > 2`
the angle list has exactly `card - 1` entries. -/
theorem angle_count_contract :
    ∀ card : ℕ,
      ((∃ e, mkGroverRudolphAngles card = Except.error e) ↔ card ≤ 2) ∧
      (2 < card → ∃ lst, get_angles card = Except.ok lst ∧
        lst.length = card - 1) := by
  intro card
  constructor
  · constructor
    · rintro ⟨e, he⟩
      by_contra h
      rw [mkGroverRudolphAngles, if_neg h] at he
      exact absurd he (by simp)
    · intro h
      exact ⟨_, by rw [mkGroverRudolphAngles, if_pos h]⟩
  · exact fun h => get_angles_ok h

/-- Witness for C4: cardinality 2 is rejected at construction and 5 yields
exactly 4 angles. -/
theorem angle_count_contract_witness :
    (∃ e, mkGroverRudolphAngles 2 = Except.error e) ∧
    (∃ lst, get_angles 5 = Except.ok lst ∧ lst.length = 5 - 1) :=
  ⟨(angle_count_contract 2).1.mpr (by norm_num),
   (angle_count_contract 5).2 (by norm_num)⟩

/-- C5: for every step `c ≥ 3`, `control_tag` yields
`l = ceil(log2 c) - 1`, `R = (c - 1) - 2^l` with `0 ≤ R < 2^l` (stated
additively so the subtraction is exact), a binary signature equal to the
rendering of `R` on exactly `l` characters, and `l = floor(log2 (c - 1))`. -/
theorem control_tag_contract :
    ∀ c : ℕ, 3 ≤ c →
      (control_tag c).l = Nat.clog 2 c - 1 ∧
      (control_tag c).R + 2 ^ (control_tag c).l = c - 1 ∧
      (control_tag c).R < 2 ^ (control_tag c).l ∧
      (control_tag c).bin_sig = natToBits (control_tag c).l (control_tag c).R ∧
      (control_tag c).bin_sig.length = (control_tag c).l ∧
      (control_tag c).l = Nat.log 2 (c - 1) := by
  intro c hc
  obtain ⟨h1, h2, h3, h4, h5, h6, _⟩ := control_tag_spec hc
  exact ⟨h1, h3, h4, h5, h6, h2⟩

/-- Witness for C5 at `c = 5`. -/
theorem control_tag_contract_witness :
    (control_tag 5).l = Nat.clog 2 5 - 1 ∧
    (control_tag 5).R + 2 ^ (control_tag 5).l = 5 - 1 ∧
    (control_tag 5).R < 2 ^ (control_tag 5).l ∧
    (control_tag 5).bin_sig = natToBits (control_tag 5).l (control_tag 5).R ∧
    (control_tag 5).bin_sig.length = (control_tag 5).l ∧
    (control_tag 5).l = Nat.log 2 (5 - 1) :=
  control_tag_contract 5 (by norm_num)

/-- C6 counterexample: the claim announces `l + 1` operations per cycle, but
for the length-2 cycle `[1, 2]` on 2 qubits the decomposition contains 5
operations, not 3: each cycle element contributes a marking flip and a
gray-code gate, plus the final uncomputing flip. -/
theorem cycle_gate_op_count_counterexample :
    exceptOkLength (permutation_cycle_gate_ops 2 [1, 2]) = some 5 ∧
    ¬ (5 = ([1, 2] : List ℕ).length + 1) := by
  constructor
  · rfl
  · decide

/-- C6 amended: for every non-empty cycle of length `l` with all elements in
`[0, 2^num_qubits)`, the decomposition of `permutation_cycle_gate` consists
of exactly `2l + 1` operations, every operation acts only on the data qubits
`0 .. n-1` and the single ancilla qubit `n`, and every operation involves
that one ancilla. -/
theorem cycle_gate_op_count_amended :
    ∀ (n : ℕ) (cycle : List ℕ), cycle ≠ [] → (∀ x ∈ cycle, x < 2 ^ n) →
      ∃ ops, permutation_cycle_gate_ops n cycle = Except.ok ops ∧
        ops.length = 2 * cycle.length + 1 ∧
        ∀ op ∈ ops, (∀ q ∈ op.qubits, q ≤ n) ∧ n ∈ op.qubits :=
  fun _ _ hne hr => permutation_cycle_gate_ops_spec hne hr

/-- Witness for the amended C6 at `n = 2`, cycle `[0, 1, 3]`. -/
theorem cycle_gate_op_count_amended_witness :
    ∃ ops, permutation_cycle_gate_ops 2 [0, 1, 3] = Except.ok ops ∧
      ops.length = 2 * ([0, 1, 3] : List ℕ).length + 1 ∧
      ∀ op ∈ ops, (∀ q ∈ op.qubits, q ≤ 2) ∧ 2 ∈ op.qubits :=
  cycle_gate_op_count_amended 2 [0, 1, 3] (by decide) (by decide)

/-- C7: the claim says `main` raises a validation error whenever an element
is `≥ 2^num_qubits`, negative, or duplicated, and proceeds only on valid
input; but the validation block accepts `[3, 3, 3]` (duplicates),
`[4, 3, 3]` (4 = 2^2 out of range, since the source tests
`max > 2**num_qubits` instead of `≥`), and `[-1, 1, 0]` (negative, never
tested).  What stops `main` on `[3, 3, 3]` is nothing to do with those
preconditions: line 66 hands `num_qubits + 1` qubits (ancilla included) to
`gr_gate._decompose_`, whose count guard raises — and the very same error
fires on the perfectly valid subset `[1, 2, 3]`, so no input is ever
rejected because of the claimed preconditions and none ever proceeds to a
circuit. -/
theorem main_validation_gap :
    mainValidate 2 3 [3, 3, 3] = Except.ok () ∧
    mainValidate 2 3 [4, 3, 3] = Except.ok () ∧
    mainValidate 2 3 [-1, 1, 0] = Except.ok () ∧
    mainFuel 2 3 [3, 3, 3] 10 =
      some (Except.error "Expected num_qubits qubits, but got a different number.") ∧
    mainFuel 2 3 [1, 2, 3] 10 =
      some (Except.error "Expected num_qubits qubits, but got a different number.") :=
  ⟨rfl, rfl, rfl, rfl, rfl⟩

/-- C8: on equal-length binary strings the gray-code gate decomposition
flips position `i` exactly when the `i`-th characters differ, each such
position exactly once, and flips nothing else. -/
theorem gray_code_gate_flip_iff :
    ∀ s1 s2 : List Bool, s1.length = s2.length →
      (∀ i, i ∈ gray_code_gate_decompose s1 s2 ↔
        (i < s1.length ∧ s1.getD i false ≠ s2.getD i false)) ∧
      (gray_code_gate_decompose s1 s2).Nodup :=
  fun s1 s2 h => gray_code_gate_spec s1 s2 h

/-- Witness for C8 on the strings `101` and `000`. -/
theorem gray_code_gate_flip_iff_witness :
    (∀ i, i ∈ gray_code_gate_decompose [true, false, true] [false, false, false] ↔
      (i < ([true, false, true] : List Bool).length ∧
        ([true, false, true] : List Bool).getD i false ≠
          ([false, false, false] : List Bool).getD i false)) ∧
    (gray_code_gate_decompose [true, false, true] [false, false, false]).Nodup :=
  gray_code_gate_flip_iff [true, false, true] [false, false, false] (by decide)

/-- C9: for cardinality 5 the prefix sequence is exactly
`['', '0', '1', '00']` and 4 angles are produced; in general the generated
prefixes are the breadth-first enumeration of binary strings by increasing
length, numerically ordered within each length, truncated after `card - 2`
strings. -/
theorem prefix_sequence_contract :
    (([] : List Bool) :: generate_prefix_binary_sequence 5 =
      [[], [false], [true], [false, false]]) ∧
    (∃ lst, get_angles 5 = Except.ok lst ∧ lst.length = 4) ∧
    (∀ card, 2 < card →
      generate_prefix_binary_sequence card = (bfsChunks 1 card).take (card - 2)) := by
  refine ⟨by decide, ?_, fun card h => generate_prefix_eq_take h⟩
  obtain ⟨lst, h1, h2⟩ := get_angles_ok (show (2 : ℕ) < 5 by norm_num)
  exact ⟨lst, h1, by omega⟩

/-- Witness for the general part of C9 at `card = 6`. -/
theorem prefix_sequence_contract_witness :
    generate_prefix_binary_sequence 6 = (bfsChunks 1 6).take (6 - 2) :=
  prefix_sequence_contract.2.2 6 (by norm_num)

/-- C10: for every `card > 2` the degenerate branches are unreachable from
`get_angles`: every prefix in the sequence (the empty one included) has
length at most `ceil(log2 card) - 1`, `partition_counter` succeeds on each
of them with `N0 + N1 ≥ 1` (so neither the string indexing nor the
both-zero check of `partition_angle` can fire), and `get_angles` returns a
value. -/
theorem degenerate_partition_unreachable :
    ∀ card : ℕ, 2 < card →
      (∀ p ∈ (([] : List Bool) :: generate_prefix_binary_sequence card),
        p.length ≤ Nat.clog 2 card - 1) ∧
      (∀ p ∈ (([] : List Bool) :: generate_prefix_binary_sequence card),
        ∃ N0 N1, partition_counter card p = Except.ok (N0, N1) ∧ 0 < N0 + N1) ∧
      (∃ lst, get_angles card = Except.ok lst) := by
  intro card h
  have hn := two_le_ceilLog2 h
  refine ⟨?_, ?_, ?_⟩
  · intro p hp
    have hb := mem_angle_seq_length h p hp
    rw [ceilLog2_eq_clog] at hb hn
    omega
  · intro p hp
    exact partition_counter_ok h p (mem_angle_seq_length h p hp)
  · obtain ⟨lst, h1, _⟩ := get_angles_ok h
    exact ⟨lst, h1⟩

/-- Witness for C10 at `card = 6`. -/
theorem degenerate_partition_unreachable_witness :
    (∀ p ∈ (([] : List Bool) :: generate_prefix_binary_sequence 6),
      p.length ≤ Nat.clog 2 6 - 1) ∧
    (∀ p ∈ (([] : List Bool) :: generate_prefix_binary_sequence 6),
      ∃ N0 N1, partition_counter 6 p = Except.ok (N0, N1) ∧ 0 < N0 + N1) ∧
    (∃ lst, get_angles 6 = Except.ok lst) :=
  degenerate_partition_unreachable 6 (by norm_num)
